import Mathlib

/-!
Verification of the task collection engine of todo-tui.

The data model is translated from src/task.rs, the operations from
src/app.rs (TodoApp).  Rust strings are modelled through their character
lists, `Vec<Task>` as `List Task`, and the chrono timestamp as an abstract
natural number (the source never inspects it).  `Vec::sort_by_key` is a
stable sort; it is modelled by the stable `List.mergeSort` with the same
key order.  The `f32` arithmetic of `completion_percentage` is carried out
exactly in `ℚ`.
-/

namespace TodoTui

/-- The three task states from src/task.rs (enum TaskStatus). -/
inductive TaskStatus where
  | Undone
  | Pending
  | Done
  deriving DecidableEq

/-- A task record from src/task.rs (struct Task).  `created_at` keeps the
optional creation timestamp as an abstract value. -/
structure Task where
  description : String
  status : TaskStatus
  created_at : Option Nat
  deriving DecidableEq

/-- Does `pat` occur at the head of `l`?  (Helper for the Rust pattern
primitives `contains` and `splitn`.) -/
def hasPrefixL : List Char → List Char → Bool
  | [], _ => true
  | _ :: _, [] => false
  | p :: ps, c :: cs => p == c && hasPrefixL ps cs

/-- Does `pat` occur anywhere in `l`?  Mirrors Rust `str::contains`. -/
def occursIn (pat : List Char) : List Char → Bool
  | [] => pat.isEmpty
  | c :: cs => hasPrefixL pat (c :: cs) || occursIn pat cs

/-- Rust `str::contains` on `String`. -/
def strContains (s pat : String) : Bool := occursIn pat.data s.data

/-- The position of the first occurrence of `pat` in `l`, if any. -/
def firstOccIdx (pat : List Char) : List Char → Option Nat
  | [] => if pat.isEmpty then some 0 else none
  | c :: cs =>
    if hasPrefixL pat (c :: cs) then some 0
    else (firstOccIdx pat cs).map (· + 1)

/-- Split at the first occurrence of `pat`.  Rust `splitn(2, pat)` yields
two pieces exactly when this returns `some`. -/
def findSplit (pat : List Char) : List Char → Option (List Char × List Char)
  | [] => if pat.isEmpty then some ([], []) else none
  | c :: cs =>
    if hasPrefixL pat (c :: cs) then some ([], (c :: cs).drop pat.length)
    else (findSplit pat cs).map (fun p => (c :: p.1, p.2))

/-- Rust `split` on a single-character pattern, keeping empty segments. -/
def splitChar (sep : Char) : List Char → List (List Char)
  | [] => [[]]
  | c :: cs =>
    if c == sep then [] :: splitChar sep cs
    else
      match splitChar sep cs with
      | [] => [[c]]
      | p :: ps => (c :: p) :: ps

/-- Rust `str::trim` on the character list: drop whitespace from both ends. -/
def trimL (l : List Char) : List Char :=
  ((l.dropWhile Char.isWhitespace).reverse.dropWhile Char.isWhitespace).reverse

/-- The compound-task expansion performed by `TodoApp::add_task`
(src/app.rs lines 38-52): when the description contains both `": "` and
`"; "`, split once on `": "` into name and rest (`splitn(2, ": ")` gives
two parts exactly when the split succeeds), split the rest on `";"`, and
format each segment as `"{name}: {segment}"` with the name and every
segment trimmed; otherwise the description stays a single task. -/
def splitDescription (description : String) : List String :=
  if strContains description ": " && strContains description "; " then
    match findSplit (": ").data description.data with
    | some (namePart, rest) =>
        (splitChar ';' rest).map
          (fun s => String.mk (trimL namePart) ++ ": " ++ String.mk (trimL s))
    | none => [description]
  else [description]

/-- Task construction in the `add_task` loop; `created_at = Some(now)`
models `Some(Local::now())`. -/
def mkTask (description : String) (status : TaskStatus) (now : Nat) : Task :=
  { description := description, status := status, created_at := some now }

/-- The status assigned by the `add_task` loop (src/app.rs lines 65-68). -/
def newStatus : Option TaskStatus → TaskStatus
  | some TaskStatus.Pending => TaskStatus.Pending
  | _ => TaskStatus.Undone

/-- `rposition(|t| t.status == Undone)`: index of the last `Undone` task. -/
def rposUndone : List Task → Option Nat
  | [] => none
  | t :: rest =>
    match rposUndone rest with
    | some i => some (i + 1)
    | none => if t.status = TaskStatus.Undone then some 0 else none

/-- The insertion start position computed by `add_task`
(src/app.rs lines 54-62). -/
def insertIndex (tasks : List Task) (current_status : Option TaskStatus)
    (current_index : Option Nat) : Nat :=
  match current_status, current_index with
  | some TaskStatus.Pending, some index => index + 1
  | some TaskStatus.Undone, some index => index + 1
  | _, _ =>
    match rposUndone tasks with
    | some i => i + 1
    | none => 0

/-- `Vec::insert` at position `i`.  The source only ever calls it with
`i ≤ len`; a larger `i` would panic in Rust. -/
def insertAt (l : List Task) (i : Nat) (a : Task) : List Task :=
  l.take i ++ a :: l.drop i

/-- The insertion loop of `add_task`: each synthesized task is inserted at
the next index (src/app.rs lines 64-78). -/
def insertLoop (tasks : List Task) (idx : Nat) : List Task → List Task
  | [] => tasks
  | t :: rest => insertLoop (insertAt tasks idx t) (idx + 1) rest

/-- `TodoApp::add_task` (src/app.rs lines 32-79). -/
def add_task (tasks : List Task) (description : String)
    (current_status : Option TaskStatus) (current_index : Option Nat)
    (now : Nat) : List Task :=
  insertLoop tasks (insertIndex tasks current_status current_index)
    ((splitDescription description).map
      (fun d => mkTask d (newStatus current_status) now))

/-- `TodoApp::delete_task` (src/app.rs lines 81-85). -/
def delete_task (tasks : List Task) (index : Nat) : List Task :=
  if index < tasks.length then tasks.eraseIdx index else tasks

/-- `get_mut`-style in-place update at an index; out-of-bounds indices
leave the list unchanged (the `if let Some(task) = get_mut` guards). -/
def modifyAt (l : List Task) (i : Nat) (f : Task → Task) : List Task :=
  match l, i with
  | [], _ => []
  | t :: rest, 0 => f t :: rest
  | t :: rest, j + 1 => t :: modifyAt rest j f

/-- `TodoApp::edit_task` (src/app.rs lines 91-95). -/
def edit_task (tasks : List Task) (index : Nat) (new_description : String) :
    List Task :=
  modifyAt tasks index (fun t => { t with description := new_description })

/-- The status transition of `TodoApp::toggle_task` (src/app.rs 99-103). -/
def toggleDoneStatus : TaskStatus → TaskStatus
  | TaskStatus.Undone => TaskStatus.Done
  | TaskStatus.Pending => TaskStatus.Undone
  | TaskStatus.Done => TaskStatus.Undone

/-- The status transition of `TodoApp::toggle_pending` (src/app.rs 110-114). -/
def togglePendingStatus : TaskStatus → TaskStatus
  | TaskStatus.Undone => TaskStatus.Pending
  | TaskStatus.Pending => TaskStatus.Undone
  | TaskStatus.Done => TaskStatus.Pending

/-- The sort key of `TodoApp::reorder_tasks` (src/app.rs 120-124). -/
def statusRank : TaskStatus → Nat
  | TaskStatus.Undone => 0
  | TaskStatus.Pending => 1
  | TaskStatus.Done => 2

/-- Key comparison used by the stable sort. -/
def leRank (a b : Task) : Bool := decide (statusRank a.status ≤ statusRank b.status)

/-- `TodoApp::reorder_tasks` (src/app.rs 119-125): `Vec::sort_by_key` is a
stable sort, modelled by the stable `List.mergeSort` with the same key. -/
def reorder_tasks (tasks : List Task) : List Task := tasks.mergeSort leRank

/-- `TodoApp::toggle_task` (src/app.rs 97-106): transition the status at an
in-bounds index, then re-sort; out of bounds does nothing. -/
def toggle_task (tasks : List Task) (index : Nat) : List Task :=
  if index < tasks.length then
    reorder_tasks
      (modifyAt tasks index (fun t => { t with status := toggleDoneStatus t.status }))
  else tasks

/-- `TodoApp::toggle_pending` (src/app.rs 108-117). -/
def toggle_pending (tasks : List Task) (index : Nat) : List Task :=
  if index < tasks.length then
    reorder_tasks
      (modifyAt tasks index (fun t => { t with status := togglePendingStatus t.status }))
  else tasks

/-- `TodoApp::completion_percentage` (src/app.rs 135-153), the `f32`
arithmetic carried out exactly in `ℚ`. -/
def completion_percentage (tasks : List Task) : Rat :=
  let done_count := (tasks.filter (fun t => decide (t.status = TaskStatus.Done))).length
  let undone_count := (tasks.filter (fun t => decide (t.status = TaskStatus.Undone))).length
  let total_count := done_count + undone_count
  if total_count = 0 then 0
  else ((done_count : Rat) / (total_count : Rat)) * 100

/-- The compound rule exactly as claim C1 words it: split on the first
`": "` into name and rest, split rest on `";"`, trim each segment, and form
`"{name}: {segment}"` — the name taken verbatim (not trimmed). -/
def splitDescriptionClaimed (description : String) : List String :=
  if strContains description ": " && strContains description "; " then
    match firstOccIdx (": ").data description.data with
    | some i =>
        (splitChar ';' (description.data.drop (i + 2))).map
          (fun s => String.mk (description.data.take i) ++ ": " ++ String.mk (trimL s))
    | none => [description]
  else [description]

/-- The compound rule as amended: as the claim words it, except that the
name is also trimmed of surrounding whitespace. -/
def splitDescriptionAmended (description : String) : List String :=
  if strContains description ": " && strContains description "; " then
    match firstOccIdx (": ").data description.data with
    | some i =>
        (splitChar ';' (description.data.drop (i + 2))).map
          (fun s => String.mk (trimL (description.data.take i)) ++ ": " ++ String.mk (trimL s))
    | none => [description]
  else [description]

/-- The toggle_done transition table as the spec states it. -/
def toggleDoneSpec : TaskStatus → TaskStatus
  | TaskStatus.Undone => TaskStatus.Done
  | TaskStatus.Pending => TaskStatus.Undone
  | TaskStatus.Done => TaskStatus.Undone

/-- The toggle_pending transition table as the spec states it. -/
def togglePendingSpec : TaskStatus → TaskStatus
  | TaskStatus.Undone => TaskStatus.Pending
  | TaskStatus.Pending => TaskStatus.Undone
  | TaskStatus.Done => TaskStatus.Pending

/-- The task fields other than the status. -/
def taskKey (t : Task) : String × Option Nat := (t.description, t.created_at)

/-- A user status-toggle action, for histories of toggle calls. -/
inductive Op where
  | toggleDone (i : Nat)
  | togglePending (i : Nat)

/-- Run one toggle action on the store. -/
def applyOp (tasks : List Task) : Op → List Task
  | Op.toggleDone i => toggle_task tasks i
  | Op.togglePending i => toggle_pending tasks i

/-- Run a sequence of toggle actions on the store. -/
def applyOps (ops : List Op) (tasks : List Task) : List Task :=
  ops.foldl applyOp tasks

lemma occursIn_eq_isSome (pat : List Char) (l : List Char) :
    occursIn pat l = (firstOccIdx pat l).isSome := by
  induction l with
  | nil => by_cases h : pat.isEmpty <;> simp [occursIn, firstOccIdx, h]
  | cons c cs ih =>
    by_cases h : hasPrefixL pat (c :: cs) <;>
      simp [occursIn, firstOccIdx, h, ih]

lemma findSplit_eq (pat : List Char) (l : List Char) :
    findSplit pat l =
      (firstOccIdx pat l).map (fun i => (l.take i, l.drop (i + pat.length))) := by
  induction l with
  | nil => by_cases h : pat.isEmpty <;> simp [findSplit, firstOccIdx, h]
  | cons c cs ih =>
    by_cases h : hasPrefixL pat (c :: cs)
    · simp [findSplit, firstOccIdx, h]
    · simp only [findSplit, firstOccIdx, h, if_neg, Bool.false_eq_true, ih]
      cases firstOccIdx pat cs with
      | none => simp
      | some i =>
        simp [List.take_succ_cons]
        have : i + 1 + pat.length = (i + pat.length) + 1 := by omega
        rw [this, List.drop_succ_cons]

lemma splitDescription_eq_amended (d : String) :
    splitDescription d = splitDescriptionAmended d := by
  unfold splitDescription splitDescriptionAmended
  by_cases h : (strContains d ": " && strContains d "; ") = true
  · rw [if_pos h, if_pos h]
    have h1 : strContains d ": " = true := ((Bool.and_eq_true _ _).mp h).1
    have h2 : (firstOccIdx (": ").data d.data).isSome = true := by
      rw [← occursIn_eq_isSome]; exact h1
    obtain ⟨i, hi⟩ := Option.isSome_iff_exists.mp h2
    rw [findSplit_eq, hi]
    simp
  · rw [if_neg h, if_neg h]

lemma insertLoop_append (new : List Task) :
    ∀ (A B : List Task), insertLoop (A ++ B) A.length new = A ++ new ++ B := by
  induction new with
  | nil => intro A B; simp [insertLoop]
  | cons t rest ih =>
    intro A B
    have h1 : insertAt (A ++ B) A.length t = (A ++ [t]) ++ B := by
      simp [insertAt, List.take_left, List.drop_left]
    have h2 : A.length + 1 = (A ++ [t]).length := by simp
    rw [insertLoop, h1, h2, ih (A ++ [t]) B]
    simp

lemma insertLoop_splice (new : List Task) (ts : List Task) (i : Nat)
    (h : i ≤ ts.length) :
    insertLoop ts i new = ts.take i ++ new ++ ts.drop i := by
  have hA : (ts.take i).length = i := by
    simp [List.length_take]; omega
  have hall := insertLoop_append new (ts.take i) (ts.drop i)
  rw [hA, List.take_append_drop] at hall
  exact hall

lemma modifyAt_oob (f : Task → Task) :
    ∀ (l : List Task) (i : Nat), l.length ≤ i → modifyAt l i f = l := by
  intro l
  induction l with
  | nil => intro i _; rfl
  | cons t rest ih =>
    intro i hi
    cases i with
    | zero => simp at hi
    | succ j => simp [modifyAt, ih j (by simpa using hi)]

lemma modifyAt_eq_set :
    ∀ (l : List Task) (i : Nat) (f : Task → Task) (h : i < l.length),
      modifyAt l i f = l.set i (f (l.get ⟨i, h⟩)) := by
  intro l
  induction l with
  | nil => intro i f h; simp at h
  | cons t rest ih =>
    intro i f h
    cases i with
    | zero => simp [modifyAt]
    | succ j => simp [modifyAt, ih j f (by simpa using h)]

lemma length_modifyAt (f : Task → Task) :
    ∀ (l : List Task) (i : Nat), (modifyAt l i f).length = l.length := by
  intro l
  induction l with
  | nil => intro i; rfl
  | cons t rest ih =>
    intro i
    cases i with
    | zero => simp [modifyAt]
    | succ j => simp [modifyAt, ih j]

lemma map_modifyAt {β : Type} (g : Task → β) (f : Task → Task)
    (hg : ∀ t, g (f t) = g t) :
    ∀ (l : List Task) (i : Nat), (modifyAt l i f).map g = l.map g := by
  intro l
  induction l with
  | nil => intro i; rfl
  | cons t rest ih =>
    intro i
    cases i with
    | zero => simp [modifyAt, hg]
    | succ j => simp [modifyAt, ih j]

lemma rposUndone_none_spec :
    ∀ (ts : List Task), rposUndone ts = none →
      ∀ (j : Nat) (hj : j < ts.length), (ts.get ⟨j, hj⟩).status ≠ TaskStatus.Undone := by
  intro ts
  induction ts with
  | nil => intro _ j hj; simp at hj
  | cons t rest ih =>
    intro h j hj
    rw [rposUndone] at h
    cases hrec : rposUndone rest with
    | some i => rw [hrec] at h; simp at h
    | none =>
      rw [hrec] at h
      by_cases ht : t.status = TaskStatus.Undone
      · rw [if_pos ht] at h; simp at h
      · rw [if_neg ht] at h
        cases j with
        | zero => simpa using ht
        | succ k => simpa using ih hrec k (by simpa using hj)

lemma rposUndone_some_spec :
    ∀ (ts : List Task) (i : Nat), rposUndone ts = some i →
      ∃ hi : i < ts.length,
        (ts.get ⟨i, hi⟩).status = TaskStatus.Undone ∧
        ∀ (j : Nat) (hj : j < ts.length), i < j →
          (ts.get ⟨j, hj⟩).status ≠ TaskStatus.Undone := by
  intro ts
  induction ts with
  | nil => intro i h; simp [rposUndone] at h
  | cons t rest ih =>
    intro i h
    rw [rposUndone] at h
    cases hrec : rposUndone rest with
    | some k =>
      rw [hrec] at h
      simp only [Option.some.injEq] at h
      obtain ⟨hk, hU, hlast⟩ := ih k hrec
      subst h
      refine ⟨by simpa using Nat.succ_lt_succ hk, by simpa using hU, ?_⟩
      intro j hj hlt
      cases j with
      | zero => omega
      | succ m =>
        simpa using hlast m (by simpa using hj) (by omega)
    | none =>
      rw [hrec] at h
      by_cases ht : t.status = TaskStatus.Undone
      · rw [if_pos ht] at h
        simp only [Option.some.injEq] at h
        subst h
        refine ⟨by simp, by simpa using ht, ?_⟩
        intro j hj hlt
        cases j with
        | zero => omega
        | succ m => simpa using rposUndone_none_spec rest hrec m (by simpa using hj)
      · rw [if_neg ht] at h; simp at h

lemma rposUndone_eq_none (ts : List Task)
    (h : ∀ (j : Nat) (hj : j < ts.length), (ts.get ⟨j, hj⟩).status ≠ TaskStatus.Undone) :
    rposUndone ts = none := by
  cases heq : rposUndone ts with
  | none => rfl
  | some i =>
    obtain ⟨hi, hU, -⟩ := rposUndone_some_spec ts i heq
    exact absurd hU (h i hi)

lemma rposUndone_eq_some (ts : List Task) (k : Nat) (hk : k < ts.length)
    (hU : (ts.get ⟨k, hk⟩).status = TaskStatus.Undone)
    (hlast : ∀ (j : Nat) (hj : j < ts.length), k < j →
      (ts.get ⟨j, hj⟩).status ≠ TaskStatus.Undone) :
    rposUndone ts = some k := by
  cases heq : rposUndone ts with
  | none => exact absurd hU (rposUndone_none_spec ts heq k hk)
  | some i =>
    obtain ⟨hi, hUi, hlasti⟩ := rposUndone_some_spec ts i heq
    rcases Nat.lt_trichotomy i k with hlt | hekk | hgt
    · exact absurd hU (hlasti k hk hlt)
    · rw [hekk]
    · exact absurd hUi (hlast i hi hgt)

lemma insertIndex_le (tasks : List Task) (cs : Option TaskStatus) (ci : Option Nat)
    (h : ∀ i, ci = some i → i < tasks.length) :
    insertIndex tasks cs ci ≤ tasks.length := by
  have hrpos : ∀ i, rposUndone tasks = some i → i + 1 ≤ tasks.length := by
    intro i hi
    obtain ⟨hlt, -, -⟩ := rposUndone_some_spec tasks i hi
    omega
  unfold insertIndex
  split
  · have := h _ rfl; omega
  · have := h _ rfl; omega
  · split
    · next i heq => exact hrpos i heq
    · omega

lemma add_task_splice (tasks : List Task) (d : String) (cs : Option TaskStatus)
    (ci : Option Nat) (now : Nat) (h : insertIndex tasks cs ci ≤ tasks.length) :
    add_task tasks d cs ci now =
      tasks.take (insertIndex tasks cs ci)
        ++ (splitDescription d).map (fun s => mkTask s (newStatus cs) now)
        ++ tasks.drop (insertIndex tasks cs ci) := by
  unfold add_task
  exact insertLoop_splice _ _ _ h

lemma leRank_trans : ∀ (a b c : Task), leRank a b → leRank b c → leRank a c := by
  intro a b c
  simp only [leRank, decide_eq_true_eq]
  omega

lemma leRank_total : ∀ (a b : Task), leRank a b || leRank b a := by
  intro a b
  simp only [leRank, Bool.or_eq_true, decide_eq_true_eq]
  omega

lemma reorder_perm (tasks : List Task) : (reorder_tasks tasks).Perm tasks :=
  List.mergeSort_perm tasks leRank

lemma reorder_sorted (tasks : List Task) :
    (reorder_tasks tasks).Pairwise (fun a b => leRank a b = true) :=
  List.sorted_mergeSort leRank_trans leRank_total tasks

lemma reorder_filter (tasks : List Task) (s : TaskStatus) :
    (reorder_tasks tasks).filter (fun t => decide (t.status = s)) =
      tasks.filter (fun t => decide (t.status = s)) := by
  have hpair : (tasks.filter (fun t => decide (t.status = s))).Pairwise
      (fun a b => leRank a b = true) := by
    apply List.pairwise_of_forall_mem_list
    intro a ha b hb
    have ha2 := (List.mem_filter.mp ha).2
    have hb2 := (List.mem_filter.mp hb).2
    simp only [decide_eq_true_eq] at ha2 hb2
    simp [leRank, ha2, hb2]
  have hsub : List.Sublist (tasks.filter (fun t => decide (t.status = s)))
      (reorder_tasks tasks) :=
    List.sublist_mergeSort leRank_trans leRank_total hpair (List.filter_sublist tasks)
  have hsub2 := hsub.filter (fun t => decide (t.status = s))
  have hid : (tasks.filter (fun t => decide (t.status = s))).filter
      (fun t => decide (t.status = s)) = tasks.filter (fun t => decide (t.status = s)) := by
    apply List.filter_eq_self.mpr
    intro a ha
    exact (List.mem_filter.mp ha).2
  rw [hid] at hsub2
  have hlen : ((reorder_tasks tasks).filter (fun t => decide (t.status = s))).length =
      (tasks.filter (fun t => decide (t.status = s))).length :=
    ((reorder_perm tasks).filter (fun t => decide (t.status = s))).length_eq
  exact (hsub2.eq_of_length hlen.symm).symm

lemma reorder_rank_lt (tasks : List Task) (i j : Nat)
    (hi : i < (reorder_tasks tasks).length) (hj : j < (reorder_tasks tasks).length)
    (h : statusRank ((reorder_tasks tasks).get ⟨i, hi⟩).status <
         statusRank ((reorder_tasks tasks).get ⟨j, hj⟩).status) : i < j := by
  rcases Nat.lt_trichotomy i j with hlt | heq | hgt
  · exact hlt
  · subst heq; simp at h
  · exfalso
    have hp := (List.pairwise_iff_getElem.mp (reorder_sorted tasks)) j i hj hi hgt
    simp only [leRank, decide_eq_true_eq] at hp
    simp only [List.get_eq_getElem] at h
    omega

/-- C1, counterexample: on the input " A: b; c" the code trims the name
before formatting, so the inserted descriptions are "A: b", "A: c" and not
the claim's "{name}: {segment}" with the raw left part " A" as the name. -/
theorem c1_counterexample :
    (add_task [] " A: b; c" none none 0).map Task.description = ["A: b", "A: c"]
    ∧ splitDescriptionClaimed " A: b; c" = [" A: b", " A: c"]
    ∧ (add_task [] " A: b; c" none none 0).map Task.description ≠
        splitDescriptionClaimed " A: b; c" :=
  ⟨by decide, by decide, by decide⟩

/-- C1, amended: add_task inserts, consecutively at the computed position
and in segment order, exactly the tasks of the compound-task shorthand in
which the name is ALSO trimmed of surrounding whitespace; a description
lacking ": " or "; " yields the single task equal to the input; the
"Groceries: milk; eggs; bread" example expands to the three tasks in
order. -/
theorem c1_compound_split (tasks : List Task) (d : String) (cs : Option TaskStatus)
    (ci : Option Nat) (now : Nat) (h : insertIndex tasks cs ci ≤ tasks.length) :
    add_task tasks d cs ci now =
      tasks.take (insertIndex tasks cs ci)
        ++ (splitDescriptionAmended d).map (fun s => mkTask s (newStatus cs) now)
        ++ tasks.drop (insertIndex tasks cs ci)
    ∧ ((strContains d ": " && strContains d "; ") = false →
        splitDescriptionAmended d = [d])
    ∧ splitDescriptionAmended "Groceries: milk; eggs; bread" =
        ["Groceries: milk", "Groceries: eggs", "Groceries: bread"] := by
  refine ⟨?_, ?_, by decide⟩
  · rw [← splitDescription_eq_amended]
    exact add_task_splice tasks d cs ci now h
  · intro hcond
    unfold splitDescriptionAmended
    rw [if_neg (by simp [hcond])]

/-- C1 witness: the theorem applied to the empty store and the example
input of the claim. -/
theorem c1_witness :
    insertIndex [] none none ≤ ([] : List Task).length
    ∧ (add_task [] "Groceries: milk; eggs; bread" none none 0 =
        ([] : List Task).take (insertIndex [] none none)
          ++ (splitDescriptionAmended "Groceries: milk; eggs; bread").map
              (fun s => mkTask s (newStatus none) 0)
          ++ ([] : List Task).drop (insertIndex [] none none)
      ∧ ((strContains "Groceries: milk; eggs; bread" ": "
            && strContains "Groceries: milk; eggs; bread" "; ") = false →
          splitDescriptionAmended "Groceries: milk; eggs; bread" =
            ["Groceries: milk; eggs; bread"])
      ∧ splitDescriptionAmended "Groceries: milk; eggs; bread" =
          ["Groceries: milk", "Groceries: eggs", "Groceries: bread"]) :=
  ⟨by decide, c1_compound_split [] "Groceries: milk; eggs; bread" none none 0 (by decide)⟩

/-- C2: after any sequence of toggle_done/toggle_pending calls followed by
reorder, a task of strictly smaller status rank (Undone=0, Pending=1,
Done=2) sits at a strictly smaller index — so every Undone precedes every
Pending, which precedes every Done — and, for each status, the subsequence
of tasks of that status is exactly what it was before the sort
(stability). -/
theorem c2_reorder_stable (ops : List Op) (tasks : List Task) :
    (∀ (i j : Nat) (hi : i < (reorder_tasks (applyOps ops tasks)).length)
        (hj : j < (reorder_tasks (applyOps ops tasks)).length),
        statusRank ((reorder_tasks (applyOps ops tasks)).get ⟨i, hi⟩).status <
          statusRank ((reorder_tasks (applyOps ops tasks)).get ⟨j, hj⟩).status →
        i < j)
    ∧ ∀ (s : TaskStatus),
        (reorder_tasks (applyOps ops tasks)).filter (fun t => decide (t.status = s)) =
          (applyOps ops tasks).filter (fun t => decide (t.status = s)) :=
  ⟨fun i j hi hj h => reorder_rank_lt _ i j hi hj h,
   fun s => reorder_filter _ s⟩

/-- C3, counterexample: add_task called with the empty string inserts one
task with empty description — the store does change. -/
theorem c3_counterexample :
    add_task [] "" none none 0 =
      [{ description := "", status := TaskStatus.Undone, created_at := some 0 }]
    ∧ add_task [] "" none none 0 ≠ [] :=
  ⟨by decide, by decide⟩

/-- C3, amended: add_task itself performs no emptiness check: called with
the empty string it inserts exactly one task whose description is the
empty string (the empty-submission guard is not part of the store). -/
theorem c3_empty_description (tasks : List Task) (cs : Option TaskStatus)
    (ci : Option Nat) (now : Nat) (h : insertIndex tasks cs ci ≤ tasks.length) :
    add_task tasks "" cs ci now =
      tasks.take (insertIndex tasks cs ci)
        ++ [mkTask "" (newStatus cs) now]
        ++ tasks.drop (insertIndex tasks cs ci) := by
  have hs : splitDescription "" = [""] := by decide
  have hall := add_task_splice tasks "" cs ci now h
  rw [hs] at hall
  simpa using hall

/-- C3 witness: the amended theorem at the empty store. -/
theorem c3_witness :
    insertIndex [] none none ≤ ([] : List Task).length
    ∧ add_task [] "" none none 0 =
        ([] : List Task).take (insertIndex [] none none)
          ++ [mkTask "" (newStatus none) 0]
          ++ ([] : List Task).drop (insertIndex [] none none) :=
  ⟨by decide, c3_empty_description [] none none 0 (by decide)⟩

/-- C4: at an in-bounds index, toggle_task replaces the status of the
targeted task by exactly the table Undone→Done, Pending→Undone,
Done→Undone and immediately re-sorts the collection via reorder; two
applications of the table starting from Undone return to Undone (not
idempotent after one). -/
theorem c4_toggle_done (tasks : List Task) (i : Nat) (h : i < tasks.length) :
    toggle_task tasks i =
      reorder_tasks (tasks.set i
        { tasks.get ⟨i, h⟩ with status := toggleDoneSpec (tasks.get ⟨i, h⟩).status })
    ∧ toggleDoneSpec TaskStatus.Undone = TaskStatus.Done
    ∧ toggleDoneSpec TaskStatus.Pending = TaskStatus.Undone
    ∧ toggleDoneSpec TaskStatus.Done = TaskStatus.Undone
    ∧ toggleDoneSpec (toggleDoneSpec TaskStatus.Undone) = TaskStatus.Undone
    ∧ toggleDoneSpec TaskStatus.Undone ≠ TaskStatus.Undone := by
  refine ⟨?_, by decide, by decide, by decide, by decide, by decide⟩
  unfold toggle_task
  rw [if_pos h, modifyAt_eq_set tasks i _ h]
  have hts : toggleDoneStatus (tasks.get ⟨i, h⟩).status =
      toggleDoneSpec (tasks.get ⟨i, h⟩).status := by
    cases (tasks.get ⟨i, h⟩).status <;> rfl
  rw [hts]

/-- C4 witness: the theorem at a one-task store holding an Undone task. -/
theorem c4_witness :
    0 < [mkTask "a" TaskStatus.Undone 0].length
    ∧ (toggle_task [mkTask "a" TaskStatus.Undone 0] 0 =
        reorder_tasks ([mkTask "a" TaskStatus.Undone 0].set 0
          { [mkTask "a" TaskStatus.Undone 0].get ⟨0, by decide⟩ with
              status := toggleDoneSpec
                ([mkTask "a" TaskStatus.Undone 0].get ⟨0, by decide⟩).status })
      ∧ toggleDoneSpec TaskStatus.Undone = TaskStatus.Done
      ∧ toggleDoneSpec TaskStatus.Pending = TaskStatus.Undone
      ∧ toggleDoneSpec TaskStatus.Done = TaskStatus.Undone
      ∧ toggleDoneSpec (toggleDoneSpec TaskStatus.Undone) = TaskStatus.Undone
      ∧ toggleDoneSpec TaskStatus.Undone ≠ TaskStatus.Undone) :=
  ⟨by decide, c4_toggle_done [mkTask "a" TaskStatus.Undone 0] 0 (by decide)⟩

/-- C5: at an in-bounds index, toggle_pending replaces the status of the
targeted task by exactly the table Undone→Pending, Pending→Undone,
Done→Pending and then triggers reorder. -/
theorem c5_toggle_pending (tasks : List Task) (i : Nat) (h : i < tasks.length) :
    toggle_pending tasks i =
      reorder_tasks (tasks.set i
        { tasks.get ⟨i, h⟩ with status := togglePendingSpec (tasks.get ⟨i, h⟩).status })
    ∧ togglePendingSpec TaskStatus.Undone = TaskStatus.Pending
    ∧ togglePendingSpec TaskStatus.Pending = TaskStatus.Undone
    ∧ togglePendingSpec TaskStatus.Done = TaskStatus.Pending := by
  refine ⟨?_, by decide, by decide, by decide⟩
  unfold toggle_pending
  rw [if_pos h, modifyAt_eq_set tasks i _ h]
  have hts : togglePendingStatus (tasks.get ⟨i, h⟩).status =
      togglePendingSpec (tasks.get ⟨i, h⟩).status := by
    cases (tasks.get ⟨i, h⟩).status <;> rfl
  rw [hts]

/-- C5 witness: the theorem at a one-task store holding an Undone task. -/
theorem c5_witness :
    0 < [mkTask "a" TaskStatus.Undone 0].length
    ∧ (toggle_pending [mkTask "a" TaskStatus.Undone 0] 0 =
        reorder_tasks ([mkTask "a" TaskStatus.Undone 0].set 0
          { [mkTask "a" TaskStatus.Undone 0].get ⟨0, by decide⟩ with
              status := togglePendingSpec
                ([mkTask "a" TaskStatus.Undone 0].get ⟨0, by decide⟩).status })
      ∧ togglePendingSpec TaskStatus.Undone = TaskStatus.Pending
      ∧ togglePendingSpec TaskStatus.Pending = TaskStatus.Undone
      ∧ togglePendingSpec TaskStatus.Done = TaskStatus.Pending) :=
  ⟨by decide, c5_toggle_pending [mkTask "a" TaskStatus.Undone 0] 0 (by decide)⟩

lemma insertIndex_default (tasks : List Task) (cs : Option TaskStatus)
    (ci : Option Nat)
    (hcase : cs = none ∨ cs = some TaskStatus.Done ∨ ci = none) :
    insertIndex tasks cs ci =
      match rposUndone tasks with
      | some i => i + 1
      | none => 0 := by
  rcases hcase with rfl | rfl | rfl
  · cases ci <;> rfl
  · cases ci <;> rfl
  · cases cs with
    | none => rfl
    | some s => cases s <;> rfl

/-- C6: the insertion position of add_task: with a reference task of status
Pending or Undone it is reference index + 1; otherwise it is one past the
last Undone task, or 0 when no task is Undone; and the synthesized tasks
are spliced in consecutively at that position, in order, removing and
reordering nothing. -/
theorem c6_insert_position (tasks : List Task) (d : String) (cs : Option TaskStatus)
    (ci : Option Nat) (now : Nat)
    (h : ∀ k, ci = some k → k < tasks.length) :
    (∀ k, ci = some k →
        (cs = some TaskStatus.Pending ∨ cs = some TaskStatus.Undone) →
        insertIndex tasks cs ci = k + 1)
    ∧ ((cs = none ∨ cs = some TaskStatus.Done ∨ ci = none) →
        ((∀ (j : Nat) (hj : j < tasks.length),
            (tasks.get ⟨j, hj⟩).status ≠ TaskStatus.Undone) →
          insertIndex tasks cs ci = 0)
        ∧ ∀ (k : Nat) (hk : k < tasks.length),
            (tasks.get ⟨k, hk⟩).status = TaskStatus.Undone →
            (∀ (j : Nat) (hj : j < tasks.length), k < j →
              (tasks.get ⟨j, hj⟩).status ≠ TaskStatus.Undone) →
            insertIndex tasks cs ci = k + 1)
    ∧ add_task tasks d cs ci now =
        tasks.take (insertIndex tasks cs ci)
          ++ (splitDescription d).map (fun s => mkTask s (newStatus cs) now)
          ++ tasks.drop (insertIndex tasks cs ci) := by
  refine ⟨?_, ?_, ?_⟩
  · intro k hk hcs
    rcases hcs with rfl | rfl <;> subst hk <;> rfl
  · intro hcase
    constructor
    · intro hnone
      rw [insertIndex_default tasks cs ci hcase, rposUndone_eq_none tasks hnone]
    · intro k hk hU hlast
      rw [insertIndex_default tasks cs ci hcase,
        rposUndone_eq_some tasks k hk hU hlast]
  · exact add_task_splice tasks d cs ci now (insertIndex_le tasks cs ci h)

/-- C6 witness: the theorem at a one-task store with no reference task. -/
theorem c6_witness :
    (∀ k, (none : Option Nat) = some k → k < [mkTask "a" TaskStatus.Undone 0].length)
    ∧ ((∀ k, (none : Option Nat) = some k →
          ((some TaskStatus.Done : Option TaskStatus) = some TaskStatus.Pending ∨
            (some TaskStatus.Done : Option TaskStatus) = some TaskStatus.Undone) →
          insertIndex [mkTask "a" TaskStatus.Undone 0] (some TaskStatus.Done) none = k + 1)
      ∧ (((some TaskStatus.Done : Option TaskStatus) = none ∨
            (some TaskStatus.Done : Option TaskStatus) = some TaskStatus.Done ∨
            (none : Option Nat) = none) →
          ((∀ (j : Nat) (hj : j < [mkTask "a" TaskStatus.Undone 0].length),
              ([mkTask "a" TaskStatus.Undone 0].get ⟨j, hj⟩).status ≠ TaskStatus.Undone) →
            insertIndex [mkTask "a" TaskStatus.Undone 0] (some TaskStatus.Done) none = 0)
          ∧ ∀ (k : Nat) (hk : k < [mkTask "a" TaskStatus.Undone 0].length),
              ([mkTask "a" TaskStatus.Undone 0].get ⟨k, hk⟩).status = TaskStatus.Undone →
              (∀ (j : Nat) (hj : j < [mkTask "a" TaskStatus.Undone 0].length), k < j →
                ([mkTask "a" TaskStatus.Undone 0].get ⟨j, hj⟩).status ≠ TaskStatus.Undone) →
              insertIndex [mkTask "a" TaskStatus.Undone 0] (some TaskStatus.Done) none = k + 1)
      ∧ add_task [mkTask "a" TaskStatus.Undone 0] "x" (some TaskStatus.Done) none 7 =
          [mkTask "a" TaskStatus.Undone 0].take
              (insertIndex [mkTask "a" TaskStatus.Undone 0] (some TaskStatus.Done) none)
            ++ (splitDescription "x").map
                (fun s => mkTask s (newStatus (some TaskStatus.Done)) 7)
            ++ [mkTask "a" TaskStatus.Undone 0].drop
                (insertIndex [mkTask "a" TaskStatus.Undone 0] (some TaskStatus.Done) none)) :=
  ⟨by simp, c6_insert_position [mkTask "a" TaskStatus.Undone 0] "x"
    (some TaskStatus.Done) none 7 (by simp)⟩

/-- C7: every task inserted by one add_task call carries the status
computed from the reference status — Pending exactly when the reference
status is Pending, Undone in every other case — and that status is never
Done; the call inserts exactly those tasks. -/
theorem c7_insert_status (tasks : List Task) (d : String) (cs : Option TaskStatus)
    (ci : Option Nat) (now : Nat) (h : insertIndex tasks cs ci ≤ tasks.length) :
    (∀ t, t ∈ (splitDescription d).map (fun s => mkTask s (newStatus cs) now) →
        t.status = newStatus cs)
    ∧ (cs = some TaskStatus.Pending → newStatus cs = TaskStatus.Pending)
    ∧ (cs ≠ some TaskStatus.Pending → newStatus cs = TaskStatus.Undone)
    ∧ newStatus cs ≠ TaskStatus.Done
    ∧ add_task tasks d cs ci now =
        tasks.take (insertIndex tasks cs ci)
          ++ (splitDescription d).map (fun s => mkTask s (newStatus cs) now)
          ++ tasks.drop (insertIndex tasks cs ci) := by
  refine ⟨?_, ?_, ?_, ?_, add_task_splice tasks d cs ci now h⟩
  · intro t ht
    obtain ⟨s, -, rfl⟩ := List.mem_map.mp ht
    rfl
  · intro hcs; subst hcs; rfl
  · intro hcs
    cases cs with
    | none => rfl
    | some s =>
      cases s with
      | Undone => rfl
      | Pending => exact absurd rfl hcs
      | Done => rfl
  · cases cs with
    | none => simp [newStatus]
    | some s => cases s <;> simp [newStatus]

/-- C7 witness: the theorem at the empty store with a Pending reference
status and no reference index. -/
theorem c7_witness :
    insertIndex [] (some TaskStatus.Pending) none ≤ ([] : List Task).length
    ∧ ((∀ t, t ∈ (splitDescription "x").map
          (fun s => mkTask s (newStatus (some TaskStatus.Pending)) 3) →
          t.status = newStatus (some TaskStatus.Pending))
      ∧ ((some TaskStatus.Pending : Option TaskStatus) = some TaskStatus.Pending →
          newStatus (some TaskStatus.Pending) = TaskStatus.Pending)
      ∧ ((some TaskStatus.Pending : Option TaskStatus) ≠ some TaskStatus.Pending →
          newStatus (some TaskStatus.Pending) = TaskStatus.Undone)
      ∧ newStatus (some TaskStatus.Pending) ≠ TaskStatus.Done
      ∧ add_task [] "x" (some TaskStatus.Pending) none 3 =
          ([] : List Task).take (insertIndex [] (some TaskStatus.Pending) none)
            ++ (splitDescription "x").map
                (fun s => mkTask s (newStatus (some TaskStatus.Pending)) 3)
            ++ ([] : List Task).drop (insertIndex [] (some TaskStatus.Pending) none)) :=
  ⟨by decide, c7_insert_status [] "x" (some TaskStatus.Pending) none 3 (by decide)⟩

/-- C8: completion_percentage lies in [0,100] and is computed only from
the Done and Undone counts (Pending excluded from numerator and
denominator): it is 0 when done + undone = 0 (so on an empty or
all-Pending store), equals done/(done+undone)·100 otherwise, is 100 when
every counted task is Done, and 50 for exactly one Done and one Undone
task regardless of any Pending tasks present. -/
theorem c8_completion_percentage (tasks : List Task) :
    (0 ≤ completion_percentage tasks ∧ completion_percentage tasks ≤ 100)
    ∧ (((tasks.filter (fun t => decide (t.status = TaskStatus.Done))).length
          + (tasks.filter (fun t => decide (t.status = TaskStatus.Undone))).length = 0)
        → completion_percentage tasks = 0)
    ∧ (((tasks.filter (fun t => decide (t.status = TaskStatus.Done))).length
          + (tasks.filter (fun t => decide (t.status = TaskStatus.Undone))).length ≠ 0)
        → completion_percentage tasks =
            (((tasks.filter (fun t => decide (t.status = TaskStatus.Done))).length : Rat)
              / (((tasks.filter (fun t => decide (t.status = TaskStatus.Done))).length
                  + (tasks.filter (fun t => decide (t.status = TaskStatus.Undone))).length
                  : Nat) : Rat)) * 100)
    ∧ ((tasks.filter (fun t => decide (t.status = TaskStatus.Undone))).length = 0 →
        (tasks.filter (fun t => decide (t.status = TaskStatus.Done))).length ≠ 0 →
        completion_percentage tasks = 100)
    ∧ ((tasks.filter (fun t => decide (t.status = TaskStatus.Done))).length = 1 →
        (tasks.filter (fun t => decide (t.status = TaskStatus.Undone))).length = 1 →
        completion_percentage tasks = 50) := by
  set D := (tasks.filter (fun t => decide (t.status = TaskStatus.Done))).length with hD
  set U := (tasks.filter (fun t => decide (t.status = TaskStatus.Undone))).length with hU
  have hcp : completion_percentage tasks =
      if D + U = 0 then 0 else ((D : Rat) / ((D + U : Nat) : Rat)) * 100 := rfl
  by_cases h0 : D + U = 0
  · rw [hcp, if_pos h0]
    refine ⟨⟨le_refl 0, by norm_num⟩, fun _ => rfl, fun hne => absurd h0 hne, ?_, ?_⟩
    · intro hU0 hD0
      exact absurd h0 (by omega)
    · intro hD1 hU1
      exact absurd h0 (by omega)
  · rw [hcp, if_neg h0]
    have hposN : 0 < D + U := Nat.pos_of_ne_zero h0
    have hpos : (0 : Rat) < ((D + U : Nat) : Rat) := by exact_mod_cast hposN
    have hle : (D : Rat) ≤ ((D + U : Nat) : Rat) := by
      exact_mod_cast Nat.le_add_right D U
    have hdiv : (D : Rat) / ((D + U : Nat) : Rat) ≤ 1 := (div_le_one hpos).mpr hle
    refine ⟨⟨by positivity, by linarith⟩, fun hc => absurd hc h0, fun _ => rfl, ?_, ?_⟩
    · intro hU0 hD0
      rw [hU0, Nat.add_zero]
      rw [div_self (by exact_mod_cast hD0)]
      norm_num
    · intro hD1 hU1
      rw [hD1, hU1]
      norm_num

/-- C9: at any index at or past the end of the collection, delete_task,
edit_task, toggle_task and toggle_pending all leave the store exactly as
it was: nothing is mutated, removed or reordered, and no error is
signalled (the operations are total). -/
theorem c9_out_of_bounds (tasks : List Task) (i : Nat) (d : String)
    (h : tasks.length ≤ i) :
    delete_task tasks i = tasks
    ∧ edit_task tasks i d = tasks
    ∧ toggle_task tasks i = tasks
    ∧ toggle_pending tasks i = tasks := by
  refine ⟨?_, ?_, ?_, ?_⟩
  · unfold delete_task
    rw [if_neg (by omega)]
  · unfold edit_task
    exact modifyAt_oob _ tasks i h
  · unfold toggle_task
    rw [if_neg (by omega)]
  · unfold toggle_pending
    rw [if_neg (by omega)]

/-- C9 witness: the four operations at index 5 of a one-task store. -/
theorem c9_witness :
    [mkTask "a" TaskStatus.Undone 0].length ≤ 5
    ∧ (delete_task [mkTask "a" TaskStatus.Undone 0] 5 = [mkTask "a" TaskStatus.Undone 0]
      ∧ edit_task [mkTask "a" TaskStatus.Undone 0] 5 "b" = [mkTask "a" TaskStatus.Undone 0]
      ∧ toggle_task [mkTask "a" TaskStatus.Undone 0] 5 = [mkTask "a" TaskStatus.Undone 0]
      ∧ toggle_pending [mkTask "a" TaskStatus.Undone 0] 5 = [mkTask "a" TaskStatus.Undone 0]) :=
  ⟨by decide, c9_out_of_bounds [mkTask "a" TaskStatus.Undone 0] 5 "b" (by decide)⟩

/-- C10: at an in-bounds index, toggle_task, toggle_pending and
reorder_tasks preserve the length of the sequence and the multiset of
(description, created_at) pairs; each toggle changes at most the status
field of the targeted task (the result is a permutation of the original
list with only that task replaced, its description and creation time
kept), and reorder permutes the tasks without modifying any field. -/
theorem c10_preservation (tasks : List Task) (i : Nat) (h : i < tasks.length) :
    ((toggle_task tasks i).length = tasks.length
      ∧ (toggle_pending tasks i).length = tasks.length
      ∧ (reorder_tasks tasks).length = tasks.length)
    ∧ ((toggle_task tasks i).map taskKey).Perm (tasks.map taskKey)
    ∧ ((toggle_pending tasks i).map taskKey).Perm (tasks.map taskKey)
    ∧ (reorder_tasks tasks).Perm tasks
    ∧ (∃ t, t.description = (tasks.get ⟨i, h⟩).description
        ∧ t.created_at = (tasks.get ⟨i, h⟩).created_at
        ∧ (toggle_task tasks i).Perm (tasks.set i t))
    ∧ (∃ t, t.description = (tasks.get ⟨i, h⟩).description
        ∧ t.created_at = (tasks.get ⟨i, h⟩).created_at
        ∧ (toggle_pending tasks i).Perm (tasks.set i t)) := by
  have htd : toggle_task tasks i =
      reorder_tasks (modifyAt tasks i
        (fun t => { t with status := toggleDoneStatus t.status })) := by
    unfold toggle_task
    rw [if_pos h]
  have htp : toggle_pending tasks i =
      reorder_tasks (modifyAt tasks i
        (fun t => { t with status := togglePendingStatus t.status })) := by
    unfold toggle_pending
    rw [if_pos h]
  have hkeyd : ∀ t : Task,
      taskKey { t with status := toggleDoneStatus t.status } = taskKey t :=
    fun t => rfl
  have hkeyp : ∀ t : Task,
      taskKey { t with status := togglePendingStatus t.status } = taskKey t :=
    fun t => rfl
  refine ⟨⟨?_, ?_, (reorder_perm tasks).length_eq⟩, ?_, ?_, reorder_perm tasks, ?_, ?_⟩
  · rw [htd, (reorder_perm _).length_eq, length_modifyAt]
  · rw [htp, (reorder_perm _).length_eq, length_modifyAt]
  · rw [htd]
    calc ((reorder_tasks (modifyAt tasks i
            (fun t => { t with status := toggleDoneStatus t.status }))).map taskKey).Perm
          ((modifyAt tasks i
            (fun t => { t with status := toggleDoneStatus t.status })).map taskKey) :=
        (reorder_perm _).map taskKey
      _ = tasks.map taskKey := map_modifyAt taskKey _ hkeyd tasks i
  · rw [htp]
    calc ((reorder_tasks (modifyAt tasks i
            (fun t => { t with status := togglePendingStatus t.status }))).map taskKey).Perm
          ((modifyAt tasks i
            (fun t => { t with status := togglePendingStatus t.status })).map taskKey) :=
        (reorder_perm _).map taskKey
      _ = tasks.map taskKey := map_modifyAt taskKey _ hkeyp tasks i
  · refine ⟨{ tasks.get ⟨i, h⟩ with
        status := toggleDoneStatus (tasks.get ⟨i, h⟩).status }, rfl, rfl, ?_⟩
    rw [htd, modifyAt_eq_set tasks i _ h]
    exact reorder_perm _
  · refine ⟨{ tasks.get ⟨i, h⟩ with
        status := togglePendingStatus (tasks.get ⟨i, h⟩).status }, rfl, rfl, ?_⟩
    rw [htp, modifyAt_eq_set tasks i _ h]
    exact reorder_perm _

/-- C10 witness: the preservation theorem at a one-task store. -/
theorem c10_witness :
    0 < [mkTask "a" TaskStatus.Undone 0].length
    ∧ (((toggle_task [mkTask "a" TaskStatus.Undone 0] 0).length =
          [mkTask "a" TaskStatus.Undone 0].length
        ∧ (toggle_pending [mkTask "a" TaskStatus.Undone 0] 0).length =
            [mkTask "a" TaskStatus.Undone 0].length
        ∧ (reorder_tasks [mkTask "a" TaskStatus.Undone 0]).length =
            [mkTask "a" TaskStatus.Undone 0].length)
      ∧ ((toggle_task [mkTask "a" TaskStatus.Undone 0] 0).map taskKey).Perm
          ([mkTask "a" TaskStatus.Undone 0].map taskKey)
      ∧ ((toggle_pending [mkTask "a" TaskStatus.Undone 0] 0).map taskKey).Perm
          ([mkTask "a" TaskStatus.Undone 0].map taskKey)
      ∧ (reorder_tasks [mkTask "a" TaskStatus.Undone 0]).Perm
          [mkTask "a" TaskStatus.Undone 0]
      ∧ (∃ t, t.description =
            ([mkTask "a" TaskStatus.Undone 0].get ⟨0, by decide⟩).description
          ∧ t.created_at =
              ([mkTask "a" TaskStatus.Undone 0].get ⟨0, by decide⟩).created_at
          ∧ (toggle_task [mkTask "a" TaskStatus.Undone 0] 0).Perm
              ([mkTask "a" TaskStatus.Undone 0].set 0 t))
      ∧ (∃ t, t.description =
            ([mkTask "a" TaskStatus.Undone 0].get ⟨0, by decide⟩).description
          ∧ t.created_at =
              ([mkTask "a" TaskStatus.Undone 0].get ⟨0, by decide⟩).created_at
          ∧ (toggle_pending [mkTask "a" TaskStatus.Undone 0] 0).Perm
              ([mkTask "a" TaskStatus.Undone 0].set 0 t))) :=
  ⟨by decide, c10_preservation [mkTask "a" TaskStatus.Undone 0] 0 (by decide)⟩

end TodoTui
